import Mathlib

/-!
Verification development for the mobile AI orchestrator's routing and
temporal-encoding core (Rust sources: `src/mlp.rs`, `src/router.rs`,
`src/reservoir.rs`, `src/training.rs`, `src/types.rs`).

Modelling conventions of this shallow embedding:
* `f32` values are modelled as exact rationals (`ℚ`); numeric literals such
  as `0.7` are taken at face value.  Transcendental `f32` functions (`tanh`,
  `exp`, `ln`, `sqrt`) have no exact rational counterpart, so each is passed
  to the embedding as an explicit function parameter; theorems quantify over
  that parameter wherever its value is irrelevant.
* Rust `String`s are modelled as `List Char`; `str::len` (bytes) is modelled
  by the character count, which coincides on ASCII text and satisfies the
  same count inequalities used in the proofs.
* A Rust `panic!`/`assert!` failure is modelled as `Option.none` where the
  failure is part of a claim, and by total `getD`-style indexing with a `0`
  default elsewhere; every theorem stated over such a definition carries the
  well-formedness hypotheses under which the defaults are never consulted.
-/

namespace Orchestrator

/-! ## types.rs -/

/-- `types.rs::Query`: text, optional project context, priority, timestamp. -/
structure Query where
  text : List Char
  project_context : Option (List Char)
  priority : ℕ
  timestamp : ℕ
  deriving DecidableEq, Repr

/-- `types.rs::RoutingDecision`. -/
inductive RoutingDecision where
  | Local | Remote | Hybrid | Blocked
  deriving DecidableEq, Repr

/-- `types.rs::RouterConfig`. -/
structure RouterConfig where
  local_threshold : ℚ
  max_local_length : ℕ
  complex_keywords : List (List Char)
  deriving DecidableEq, Repr

/-- `types.rs::RouterConfig::default()`. -/
def defaultRouterConfig : RouterConfig :=
  { local_threshold := 7/10
    max_local_length := 500
    complex_keywords := ["prove".toList, "verify".toList, "formal".toList, "complex".toList] }

/-- `types.rs::Query::is_high_priority`: priority strictly above 7. -/
def Query.isHighPriority (q : Query) : Bool := 7 < q.priority

/-! ## Text helpers used by router.rs (Rust `str` methods on ASCII text) -/

/-- `str::to_lowercase`, restricted to the per-character ASCII mapping. -/
def toLowerL (s : List Char) : List Char := s.map Char.toLower

/-- `char::is_ascii_punctuation`: the four ASCII punctuation ranges. -/
def isAsciiPunct (c : Char) : Bool :=
  (0x21 ≤ c.toNat && c.toNat ≤ 0x2F) || (0x3A ≤ c.toNat && c.toNat ≤ 0x40) ||
  (0x5B ≤ c.toNat && c.toNat ≤ 0x60) || (0x7B ≤ c.toNat && c.toNat ≤ 0x7E)

/-- `str::contains` for a string pattern: `needle` occurs as a contiguous
substring of the haystack. -/
def isSubOf (needle : List Char) : List Char → Bool
  | [] => needle.isEmpty
  | c :: cs => needle.isPrefixOf (c :: cs) || isSubOf needle cs

/-- Helper for `str::split_whitespace`: words accumulated left to right,
`acc` holds the current word reversed. -/
def splitWsAux : List Char → List Char → List (List Char)
  | [], acc => if acc.isEmpty then [] else [acc.reverse]
  | c :: cs, acc =>
    if c.isWhitespace then
      if acc.isEmpty then splitWsAux cs [] else acc.reverse :: splitWsAux cs []
    else splitWsAux cs (c :: acc)

/-- `str::split_whitespace`: maximal runs of non-whitespace characters. -/
def splitWs (s : List Char) : List (List Char) := splitWsAux s []

/-! ## mlp.rs -/

/-- `mlp.rs::MLP`: layer-size data plus per-layer weight matrices and biases. -/
structure MLP where
  input_size : ℕ
  hidden_sizes : List ℕ
  output_size : ℕ
  weights : List (List (List ℚ))
  biases : List (List ℚ)
  deriving DecidableEq, Repr

/-- Dot product as accumulated in `MLP::forward`: the row is zipped with the
activation vector, so surplus entries on either side are ignored. -/
def dotZ (row act : List ℚ) : ℚ := (List.zipWith (· * ·) row act).sum

/-- One layer of `MLP::forward`/`MLP::backward`: `next[i] = bias[i] + Σ w·a`
for the indices where both a weight row and a bias exist (the Rust loop zips
rows with biases into a zero-initialised vector of `lw.length` entries), then
ReLU — which the source applies exactly when the row count differs from
`output_size`, not "except on the last layer". -/
def layerForward (outSz : ℕ) (act : List ℚ) (lw : List (List ℚ)) (lb : List ℚ) : List ℚ :=
  let next := (List.range lw.length).map (fun i =>
    match lw[i]?, lb[i]? with
    | some row, some b => b + dotZ row act
    | _, _ => 0)
  if lw.length ≠ outSz then next.map (fun a => max a 0) else next

/-- `MLP::forward`.  The Rust function asserts
`input.len() == self.input_size` (panic on mismatch), modelled as `none`. -/
def forward (m : MLP) (input : List ℚ) : Option (List ℚ) :=
  if input.length = m.input_size then
    some ((List.zip m.weights m.biases).foldl
      (fun act p => layerForward m.output_size act p.1 p.2) input)
  else none

/-- `MLP::softmax`, with `f32::exp` abstracted as `ex`.  The running maximum
starts from the head rather than `f32::NEG_INFINITY` (identical on the
non-empty lists softmax is applied to). -/
def softmax (ex : ℚ → ℚ) (values : List ℚ) : List ℚ :=
  let mx := values.foldl max (values.headD 0)
  let exps := values.map (fun v => ex (v - mx))
  let s := exps.sum
  exps.map (fun e => e / s)

/-- Loop of `MLP::argmax`: Rust `Iterator::max_by` keeps the incumbent only
when it is strictly greater, so the last maximal element wins. -/
def argmaxGo : ℕ × ℚ → List (ℕ × ℚ) → ℕ × ℚ
  | best, [] => best
  | best, p :: ps => argmaxGo (if p.2 < best.2 then best else p) ps

/-- `MLP::argmax`: index of the (last) maximum; `unwrap_or(0)` on empty. -/
def argmax (values : List ℚ) : ℕ :=
  match values.enum with
  | [] => 0
  | p :: ps => (argmaxGo p ps).1

/-- Per-entry gradient step of `MLP::update`. -/
def gdStep (lr w g : ℚ) : ℚ := w - lr * g

/-- The write pattern of `MLP::update`: the Rust code iterates the gradient
structure and assigns into the weight structure, so entries of the first list
with no counterpart are left unchanged.  (Gradient entries beyond the weight
structure would panic in Rust; they are ignored here, and every theorem about
`update` assumes matching shapes.) -/
def zipKeep (f : α → β → α) : List α → List β → List α
  | xs, [] => xs
  | [], _ => []
  | x :: xs, y :: ys => f x y :: zipKeep f xs ys

/-- `MLP::update`: gradient descent applied to the weights only. -/
def update (m : MLP) (gradients : List (List (List ℚ))) (learning_rate : ℚ) : MLP :=
  { m with weights :=
      (zipKeep
        (fun lw lg2 => zipKeep (fun wr gr => zipKeep (gdStep learning_rate) wr gr) lw lg2)
        m.weights gradients) }

/-- The linear congruential step shared by `MLP::new` and
`EchoStateNetwork::initialize_weights`: `u64` wrapping arithmetic. -/
def lcgNext (s : ℕ) : ℕ := (s * 1103515245 + 12345) % 18446744073709551616

/-- `rand = ((seed / 65536) % 32768) as f32 / 32768.0` (exact in `ℚ`). -/
def lcgRand (s : ℕ) : ℚ := (((s / 65536) % 32768 : ℕ) : ℚ) / 32768

/-- One generated row: the seed advances once per entry, entry = `g rand`. -/
def genRow (g : ℚ → ℚ) (cols : ℕ) (s : ℕ) : List ℚ × ℕ :=
  (List.range cols).foldl
    (fun acc _ => let s2 := lcgNext acc.2; (acc.1 ++ [g (lcgRand s2)], s2)) ([], s)

/-- A generated `rows × cols` matrix, threading the seed row-major exactly as
the nested Rust loops do. -/
def genMat (g : ℚ → ℚ) (rows cols : ℕ) (s : ℕ) : List (List ℚ) × ℕ :=
  (List.range rows).foldl
    (fun acc _ => let r := genRow g cols acc.2; (acc.1 ++ [r.1], r.2)) ([], s)

/-- `MLP::new`, with `f32::sqrt` (used only for the Xavier scale
`sqrt(2/fan_in)`) abstracted as `sq`; the fixed seed is 123. -/
def mlpNew (sq : ℚ → ℚ) (input_size : ℕ) (hidden_sizes : List ℕ) (output_size : ℕ) : MLP :=
  let layer_sizes := input_size :: (hidden_sizes ++ [output_size])
  let pairs := List.zip layer_sizes layer_sizes.tail
  let r := pairs.foldl
    (fun (acc : List (List (List ℚ)) × List (List ℚ) × ℕ) (p : ℕ × ℕ) =>
      let cols := p.1
      let rows := p.2
      let scale := sq (2 / (cols : ℚ))
      let mr := genMat (fun rnd => (rnd - 1/2) * 2 * scale) rows cols acc.2.2
      (acc.1 ++ [mr.1], acc.2.1 ++ [List.replicate rows (0 : ℚ)], mr.2))
    ([], [], 123)
  ⟨input_size, hidden_sizes, output_size, r.1, r.2.1⟩

/-- `training.rs::one_hot` (the Rust write `vec[label] = 1.0` panics for
`label ≥ num_classes`; `List.set` is then the identity, and every use here
has `label < num_classes`). -/
def oneHot (label num_classes : ℕ) : List ℚ :=
  (List.replicate num_classes (0 : ℚ)).set label 1

/-- `MLP::backward`, with `f32::ln` abstracted as `lg2` (the logarithm enters
only the reported loss, never the gradients).  Returns `(loss, weight
gradients)`; bias gradients are computed by the source but dropped from its
return value, hence omitted.  Indexing that would panic in Rust on malformed
shapes is modelled with `getD _ 0`. -/
def backward (lg2 : ℚ → ℚ) (m : MLP) (input target : List ℚ) : ℚ × List (List (List ℚ)) :=
  let steps := List.zip m.weights m.biases
  let activations := steps.scanl (fun act p => layerForward m.output_size act p.1 p.2) input
  let output := activations.getLastD []
  let loss := ((List.zip output target).map (fun p => -(p.2 * lg2 (max p.1 (1/10000000))))).sum
  let delta0 := (List.zip output target).map (fun p => p.1 - p.2)
  let res := (List.range m.weights.length).reverse.foldl
    (fun (acc : List (List (List ℚ)) × List ℚ) l =>
      let lw := m.weights.getD l []
      let prev := activations.getD l []
      let delta := acc.2
      let g := (List.range lw.length).map (fun i =>
        (List.range (lw.headD []).length).map (fun j => delta.getD i 0 * prev.getD j 0))
      let newDelta :=
        if 0 < l then
          let nd := (List.range prev.length).map (fun j =>
            (lw.enum.map (fun q => delta.getD q.1 0 * q.2.getD j 0)).sum)
          List.zipWith (fun d a => if a ≤ 0 then (0 : ℚ) else d) nd prev
        else delta
      (g :: acc.1, newDelta))
    ([], delta0)
  (loss, res.1)

/-! ## router.rs -/

/-- `router.rs::Router`: config, optional MLP, use flag. -/
structure Router where
  config : RouterConfig
  mlp : Option MLP
  use_mlp : Bool
  deriving DecidableEq, Repr

/-- `Router::new`. -/
def routerNew : Router := ⟨defaultRouterConfig, none, false⟩

/-- `Router::with_config`. -/
def withConfig (config : RouterConfig) : Router := ⟨config, none, false⟩

/-- `Router::set_mlp`. -/
def setMlp (r : Router) (m : MLP) : Router := { r with mlp := some m, use_mlp := true }

/-- `Router::set_use_mlp`: the flag is and-ed with `mlp.is_some()`, so a
request to enable classifier routing with no classifier attached is silently
cleared. -/
def setUseMlp (r : Router) (b : Bool) : Router := { r with use_mlp := b && r.mlp.isSome }

/-- Hash of one word in `Router::extract_features`:
`word.chars().map(|c| c as u32).sum::<u32>() % 360` — the sum wraps modulo
`2^32` at every addition. -/
def wordHash (w : List Char) : ℕ :=
  (w.foldl (fun a c => (a + c.toNat) % 4294967296) 0) % 360

/-- One step of the bag-of-words loop:
`features[20 + hash] += 1.0 / words.len()`. -/
def bagStep (n : ℕ) (f : List ℚ) (w : List Char) : List ℚ :=
  let idx := 20 + wordHash w
  f.set idx (f.getD idx 0 + 1 / (n : ℚ))

/-- Keyword-flag loop of `Router::extract_features`
(`for (i, keyword) in ...enumerate().take(5)`): sets `features[5 + i]`. -/
def kwLoop (low : List Char) : ℕ → List (List Char) → List ℚ → List ℚ
  | _, [], f => f
  | i, k :: ks, f =>
    kwLoop low (i + 1) ks (f.set (5 + i) (if isSubOf (toLowerL k) low then 1 else 0))

/-- Features 0–19 of `Router::extract_features` (source lines 91–141): the
writes into the zero-initialised 384-slot vector that precede the
bag-of-words loop.  The slot comments match the source's numbering. -/
def featsStatic (cfg : RouterConfig) (q : Query) : List ℚ :=
  let text := q.text
  let low := toLowerL text
  let len := text.length
  let ws := splitWs text
  let f := List.replicate 384 (0 : ℚ)
  -- 0: normalized length; 1: normalized word count
  let f := f.set 0 (min ((len : ℚ) / 1000) 1)
  let f := f.set 1 (min ((ws.length : ℚ) / 100) 1)
  -- 2: question mark; 3: priority / 10; 4: has project context
  let f := f.set 2 (if text.contains '?' then 1 else 0)
  let f := f.set 3 ((q.priority : ℚ) / 10)
  let f := f.set 4 (if q.project_context.isSome then 1 else 0)
  -- 5–9: first five configured keyword flags
  let f := kwLoop low 0 (cfg.complex_keywords.take 5) f
  -- 10: uppercase fraction; 11: punctuation density
  let upc := (text.filter Char.isUpper).length
  let f := f.set 10 (if text.isEmpty then 0 else (upc : ℚ) / (len : ℚ))
  let pc := (text.filter isAsciiPunct).length
  let f := f.set 11 (if text.isEmpty then 0 else (pc : ℚ) / (len : ℚ))
  -- 12–19: leading-word flags
  let f := f.set 12 (if ("how".toList).isPrefixOf low then 1 else 0)
  let f := f.set 13 (if ("what".toList).isPrefixOf low then 1 else 0)
  let f := f.set 14 (if ("why".toList).isPrefixOf low then 1 else 0)
  let f := f.set 15 (if ("when".toList).isPrefixOf low then 1 else 0)
  let f := f.set 16 (if ("where".toList).isPrefixOf low then 1 else 0)
  let f := f.set 17 (if ("who".toList).isPrefixOf low then 1 else 0)
  let f := f.set 18 (if ("can".toList).isPrefixOf low then 1 else 0)
  let f := f.set 19 (if ("should".toList).isPrefixOf low then 1 else 0)
  f

/-- `Router::extract_features`: the static features 0–19, then the hashed
bag-of-words loop over the first 360 words (slots 20–379), then the four
metadata slots 380–383. -/
def extractFeatures (cfg : RouterConfig) (q : Query) : List ℚ :=
  let text := q.text
  let len := text.length
  let ws := splitWs text
  let f := featsStatic cfg q
  -- 20–379: hashed bag of words over the first 360 words
  let f := (ws.take 360).foldl (bagStep ws.length) f
  -- 380–383: metadata
  let f := f.set 380 (min (((q.timestamp % 86400 : ℕ) : ℚ) / 86400) 1)
  let f := f.set 381 (if q.isHighPriority then 1 else 0)
  let f := f.set 382 (if 200 < len then 1 else 0)
  let f := f.set 383 (if isSubOf ("error".toList) text || isSubOf ("bug".toList) text then 1 else 0)
  f

/-- `Router::route_heuristic`: the ordered rule cascade. -/
def routeHeuristic (cfg : RouterConfig) (q : Query) : RoutingDecision × ℚ :=
  if cfg.max_local_length < q.text.length then (.Remote, 9/10)
  else if cfg.complex_keywords.any (fun kw => isSubOf (toLowerL kw) (toLowerL q.text)) then
    (.Remote, 85/100)
  else if q.text.length < 50 then (.Local, 8/10)
  else if q.text.contains '?' && decide (q.text.length < 200) then (.Local, 75/100)
  else if q.isHighPriority && q.project_context.isSome then (.Hybrid, 7/10)
  else (.Local, cfg.local_threshold)

/-- `Router::route_with_mlp`; `ex` abstracts `f32::exp` inside softmax.  The
`mlp.forward` call panics on a feature/input size mismatch (`none` here). -/
def routeWithMlp (ex : ℚ → ℚ) (r : Router) (q : Query) : Option (RoutingDecision × ℚ) :=
  match r.mlp with
  | some m =>
    (forward m (extractFeatures r.config q)).map (fun logits =>
      let probs := softmax ex logits
      let di := argmax probs
      let confidence := probs.getD di 0
      let d : RoutingDecision :=
        if di = 0 then .Local else if di = 1 then .Remote else if di = 2 then .Hybrid else .Local
      (d, confidence))
  | none => some (routeHeuristic r.config q)

/-- `Router::route`: MLP path when enabled and present, else heuristics. -/
def route (ex : ℚ → ℚ) (r : Router) (q : Query) : Option (RoutingDecision × ℚ) :=
  if r.use_mlp && r.mlp.isSome then routeWithMlp ex r q
  else some (routeHeuristic r.config q)

/-! ## reservoir.rs -/

/-- `reservoir.rs::EchoStateNetwork` (all ten fields of the source struct;
`reservoir_weights` and `input_weights` carry `#[serde(skip)]` there). -/
structure EchoStateNetwork where
  reservoir_size : ℕ
  input_size : ℕ
  output_size : ℕ
  reservoir_weights : List (List ℚ)
  input_weights : List (List ℚ)
  output_weights : List (List ℚ)
  state : List ℚ
  leak_rate : ℚ
  spectral_radius : ℚ
  input_scaling : ℚ
  deriving DecidableEq, Repr

/-- `EchoStateNetwork::initialize_weights` (named `initWeights` here): from
the fixed seed 42, a sparse reservoir matrix — an entry is connected exactly
when its draw is below 0.1, then every entry is scaled by the spectral
radius — followed, continuing the same seed stream, by a dense input matrix
scaled by `input_scaling`. -/
def initWeights (e : EchoStateNetwork) : EchoStateNetwork :=
  let rw := genMat (fun r => if r < 1/10 then (r - 1/2) * 2 else 0)
    e.reservoir_size e.reservoir_size 42
  let rwScaled := rw.1.map (fun row => row.map (fun w => w * e.spectral_radius))
  let iw := genMat (fun r => (r - 1/2) * 2 * e.input_scaling) e.reservoir_size e.input_size rw.2
  { e with reservoir_weights := rwScaled, input_weights := iw.1 }

/-- `EchoStateNetwork::new`: zero matrices and state, `input_scaling = 1.0`,
then `initialize_weights`. -/
def esnNew (input_size reservoir_size output_size : ℕ) (leak_rate spectral_radius : ℚ) :
    EchoStateNetwork :=
  initWeights
    { reservoir_size := reservoir_size
      input_size := input_size
      output_size := output_size
      reservoir_weights := List.replicate reservoir_size (List.replicate reservoir_size 0)
      input_weights := List.replicate reservoir_size (List.replicate input_size 0)
      output_weights := List.replicate output_size (List.replicate reservoir_size 0)
      state := List.replicate reservoir_size 0
      leak_rate := leak_rate
      spectral_radius := spectral_radius
      input_scaling := 1 }

/-- `EchoStateNetwork::update`, with `f32::tanh` abstracted as `th`.  The
source asserts `input.len() == input_size` (panic ⇒ `none`); the new state is
`(1-α)·x + α·th(W_in·u + W·x)`. -/
def esnUpdate (th : ℚ → ℚ) (e : EchoStateNetwork) (input : List ℚ) :
    Option EchoStateNetwork :=
  if input.length = e.input_size then
    let inAct := (List.range e.reservoir_size).map (fun i =>
      ((List.range e.input_size).map (fun j =>
        (e.input_weights.getD i []).getD j 0 * input.getD j 0)).sum)
    let resAct := (List.range e.reservoir_size).map (fun i =>
      ((List.range e.reservoir_size).map (fun j =>
        (e.reservoir_weights.getD i []).getD j 0 * e.state.getD j 0)).sum)
    let st := (List.range e.reservoir_size).map (fun i =>
      (1 - e.leak_rate) * e.state.getD i 0 + e.leak_rate * th (inAct.getD i 0 + resAct.getD i 0))
    some { e with state := st }
  else none

/-- `EchoStateNetwork::output`: the linear readout `W_out · x`. -/
def esnOutput (e : EchoStateNetwork) : List ℚ :=
  (List.range e.output_size).map (fun i =>
    ((List.range e.reservoir_size).map (fun j =>
      (e.output_weights.getD i []).getD j 0 * e.state.getD j 0)).sum)

/-- The output-weight matrix computed by `EchoStateNetwork::train`'s nested
loops: `W_out[i][j] = (Σ_k targets[k][i]·states[k][j]) / (n_samples + λ)`. -/
def trainedWeights (e : EchoStateNetwork) (states targets : List (List ℚ)) (reg : ℚ) :
    List (List ℚ) :=
  (List.range e.output_size).map (fun i =>
    (List.range e.reservoir_size).map (fun j =>
      ((List.range states.length).map (fun k =>
        (targets.getD k []).getD i 0 * (states.getD k []).getD j 0)).sum /
      ((states.length : ℚ) + reg)))

/-- `EchoStateNetwork::train`: `none` models the length-mismatch panic; empty
data is a silent no-op; otherwise the cross-correlation estimator
`W_out[i][j] = (Σ_k targets[k][i]·states[k][j]) / (n + λ)`. -/
def esnTrain (e : EchoStateNetwork) (states targets : List (List ℚ)) (regularization : ℚ) :
    Option EchoStateNetwork :=
  if states.length = targets.length then
    if states.isEmpty then some e
    else some { e with output_weights := trainedWeights e states targets regularization }
  else none

/-- `EchoStateNetwork::reset`. -/
def esnReset (e : EchoStateNetwork) : EchoStateNetwork :=
  { e with state := List.replicate e.reservoir_size 0 }

/-- Run an input sequence through `update`, collecting the state after every
step (the behaviour C2 compares between a saved and a loaded encoder). -/
def esnRun (th : ℚ → ℚ) (e : EchoStateNetwork) : List (List ℚ) →
    Option (EchoStateNetwork × List (List ℚ))
  | [] => some (e, [])
  | u :: us =>
    (esnUpdate th e u).bind fun e2 =>
      (esnRun th e2 us).map fun r => (r.1, e2.state :: r.2)

/-- The persisted record of an encoder: exactly the fields the
`serde` derive on `EchoStateNetwork` serializes — everything except the
`#[serde(skip)]` fixed matrices. -/
structure ESNRecord where
  reservoir_size : ℕ
  input_size : ℕ
  output_size : ℕ
  output_weights : List (List ℚ)
  state : List ℚ
  leak_rate : ℚ
  spectral_radius : ℚ
  input_scaling : ℚ
  deriving DecidableEq, Repr

/-- Serialization of an encoder (the non-skipped fields). -/
def saveESN (e : EchoStateNetwork) : ESNRecord :=
  ⟨e.reservoir_size, e.input_size, e.output_size, e.output_weights, e.state,
   e.leak_rate, e.spectral_radius, e.input_scaling⟩

/-- Modelled from the spec: the persistence collaborator's load path.  The
`persistence` module is declared in `lib.rs` but its source is not under
`src/`; §6 of the spec requires that loading "reconstruct those fixed
matrices via the same deterministic initialization before restoring the
trainable values" from the persisted structural parameters.  Accordingly the
loader re-runs `EchoStateNetwork::new` on the stored dimensions, leak rate
and spectral radius, then restores the trainable output weights and the
state. -/
def loadESN (r : ESNRecord) : EchoStateNetwork :=
  let base := esnNew r.input_size r.reservoir_size r.output_size r.leak_rate r.spectral_radius
  { base with output_weights := r.output_weights, state := r.state }

/-! ## training.rs -/

/-- The per-example body shared by both branches of `MLPTrainer::train`'s
epoch loop: `backward` with a 3-class one-hot target (`one_hot(label, 3)`),
then `update`, with the loss added to the running sum. -/
def exStep (lg2 : ℚ → ℚ) (lr : ℚ) (feats : List (List ℚ)) (labels : List ℕ)
    (acc : MLP × ℚ) (i : ℕ) : MLP × ℚ :=
  let target := oneHot (labels.getD i 0) 3
  let r := backward lg2 acc.1 (feats.getD i []) target
  (update acc.1 r.2 lr, acc.2 + r.1)

/-- Fold of `exStep` over a list of example indices, starting from loss 0. -/
def runExamples (lg2 : ℚ → ℚ) (lr : ℚ) (feats : List (List ℚ)) (labels : List ℕ)
    (m : MLP) (idxs : List ℕ) : MLP × ℚ :=
  idxs.foldl (exStep lg2 lr feats labels) (m, 0)

/-- One mini-batch of `MLPTrainer::train`'s epoch loop: examples
`start = b·bs` up to `end = min(start+bs, len)` (exclusive), batch loss
divided by the batch width and added to the running epoch loss. -/
def batchStep (lg2 : ℚ → ℚ) (lr : ℚ) (feats : List (List ℚ)) (labels : List ℕ)
    (bs : ℕ) (acc : MLP × ℚ) (b : ℕ) : MLP × ℚ :=
  let s := b * bs
  let e := min (s + bs) feats.length
  let rb := runExamples lg2 lr feats labels acc.1 (List.range' s (e - s))
  (rb.1, acc.2 + rb.2 / ((e - s : ℕ) : ℚ))

/-- One epoch of `MLPTrainer::train` (lines 158–195 of `training.rs`): when
`0 < batch_size < len`, `len / batch_size` contiguous batches, the summed
per-batch mean losses divided by the number of batches; otherwise one full
batch with the loss divided by `len`. -/
def epochStep (lg2 : ℚ → ℚ) (m : MLP) (feats : List (List ℚ)) (labels : List ℕ)
    (bs : ℕ) (lr : ℚ) : MLP × ℚ :=
  let len := feats.length
  if 0 < bs ∧ bs < len then
    let nB := len / bs
    let r := (List.range nB).foldl (batchStep lg2 lr feats labels bs) (m, 0)
    (r.1, r.2 / (nB : ℚ))
  else
    let r := runExamples lg2 lr feats labels m (List.range len)
    (r.1, r.2 / (len : ℚ))

/-- Follows the claim's words, not the source: an epoch that visits *every*
training example exactly once, in order, backward+update per example, epoch
loss the mean over all examples. -/
def epochAllSpec (lg2 : ℚ → ℚ) (m : MLP) (feats : List (List ℚ)) (labels : List ℕ)
    (lr : ℚ) : MLP × ℚ :=
  let r := runExamples lg2 lr feats labels m (List.range feats.length)
  (r.1, r.2 / (feats.length : ℚ))

/-- Follows the amended claim's words: an epoch that visits exactly the first
`(len / bs) * bs` examples once each, in order, epoch loss the mean over the
visited examples. -/
def epochTruncSpec (lg2 : ℚ → ℚ) (m : MLP) (feats : List (List ℚ)) (labels : List ℕ)
    (bs : ℕ) (lr : ℚ) : MLP × ℚ :=
  let k := (feats.length / bs) * bs
  let r := runExamples lg2 lr feats labels m (List.range k)
  (r.1, r.2 / (k : ℚ))

/-- Follows the spec's words for `MLP::forward` ("applies ReLU to every layer
except the final one"), used to exhibit the divergence of the source's
row-count test: layers are processed by position, ReLU on all but the last. -/
def forwardSpecWords (m : MLP) (input : List ℚ) : Option (List ℚ) :=
  if input.length = m.input_size then
    let steps := List.zip m.weights m.biases
    some (steps.enum.foldl
      (fun act p =>
        let next := (List.range p.2.1.length).map (fun i =>
          match p.2.1[i]?, p.2.2[i]? with
          | some row, some b => b + dotZ row act
          | _, _ => 0)
        if p.1 ≠ steps.length - 1 then next.map (fun a => max a 0) else next)
      input)
  else none

/-! ## Concrete instances used by counterexamples and witnesses -/

/-- A (structurally trivial) classifier value, used only to occupy the
router's `mlp` slot. -/
def mlp0 : MLP := ⟨384, [], 3, [], []⟩

/-- The two-character query "Hi". -/
def qHi : Query := ⟨"Hi".toList, none, 5, 0⟩

/-- A 60-character priority-9 query with a project context, no complex
keyword, and a question mark: 59 `a`s followed by `?`. -/
def qC3 : Query := ⟨List.replicate 59 'a' ++ ['?'], some "p".toList, 9, 0⟩

/-- A 60-character priority-9 query with a project context, no complex
keyword and no question mark. -/
def qC3w : Query := ⟨List.replicate 60 'a', some "p".toList, 9, 0⟩

/-- A 600-character keyword-free query. -/
def q600 : Query := ⟨List.replicate 600 'a', none, 5, 0⟩

/-- A one-weight classifier used by the training-epoch counterexample. -/
def mC5 : MLP := ⟨1, [], 1, [[[1]]], [[0]]⟩

/-- `MLP::new(2, vec![2], 2)`: hidden size = output size = 2, so the Xavier
scale is `sqrt(2/2) = sqrt 1 = 1` exactly (hence `sq := id` is the faithful
instantiation of `f32::sqrt` at the only point where it is applied) and the
fixed-seed weights are exact dyadic rationals. -/
def mlpBug : MLP := mlpNew (fun x => x) 2 [2] 2

/-! ## Helper lemmas -/

theorem sum_map_range_eq (f : ℕ → ℚ) (n : ℕ) :
    ((List.range n).map f).sum = ∑ k ∈ Finset.range n, f k := by
  induction n with
  | zero => simp
  | succ n ih =>
    rw [List.range_succ, List.map_append, List.sum_append, Finset.sum_range_succ, ih]
    simp

theorem getD_map_range {α : Type} (n : ℕ) (f : ℕ → α) (d : α) (i : ℕ) (h : i < n) :
    ((List.range n).map f).getD i d = f i := by
  rw [List.getD_eq_getElem?_getD, List.getElem?_map, List.getElem?_range h]
  rfl

/-! ## Claims -/

/-- C10: `MLP::argmax` on an empty list does not fail — `max_by` yields
`None` and `unwrap_or(0)` turns it into index 0. -/
theorem claim_C10_argmax_empty : argmax ([] : List ℚ) = 0 := rfl

/-- C2: persisting an encoder (any encoder reachable in the source:
`EchoStateNetwork::new` followed by mutations of the trainable output
weights and of the state) and loading the record reconstructs the fixed
reservoir and input matrices by re-running the same deterministic
initialization on the stored structural parameters before restoring the
trainable output weights, so the loaded encoder is equal to the saved one as
a value, and its `update` trajectory (for every modelling of `tanh`) and its
`output` coincide with the saved encoder's on every input sequence. -/
theorem claim_C2_persist_roundtrip (i rs o : ℕ) (lk sr : ℚ) (ws : List (List ℚ))
    (st : List ℚ) (th : ℚ → ℚ) (ins : List (List ℚ)) :
    loadESN (saveESN { esnNew i rs o lk sr with output_weights := ws, state := st }) =
      { esnNew i rs o lk sr with output_weights := ws, state := st } ∧
    esnRun th (loadESN (saveESN { esnNew i rs o lk sr with output_weights := ws, state := st }))
        ins =
      esnRun th { esnNew i rs o lk sr with output_weights := ws, state := st } ins ∧
    esnOutput (loadESN (saveESN { esnNew i rs o lk sr with output_weights := ws, state := st })) =
      esnOutput { esnNew i rs o lk sr with output_weights := ws, state := st } :=
  ⟨rfl, rfl, rfl⟩

/-- C1 (amended): `Router::route` never surfaces an error when no classifier
is attached.  Requesting classifier routing via `set_use_mlp(true)` on a
router without a classifier is silently ignored (the flag is and-ed with
`mlp.is_some()`), and `route` returns exactly the heuristic-cascade result —
the same value produced when a classifier is attached but disabled by
configuration.  There is no error value and no behavioural distinction
between the two situations. -/
theorem claim_C1_silent_fallback (ex : ℚ → ℚ) (cfg : RouterConfig) (q : Query) (m : MLP) :
    route ex (setUseMlp (withConfig cfg) true) q = some (routeHeuristic cfg q) ∧
    route ex (setUseMlp (setMlp (withConfig cfg) m) false) q = some (routeHeuristic cfg q) :=
  ⟨rfl, rfl⟩

set_option maxRecDepth 4000 in
/-- C1 counterexample: on the concrete query "Hi", a router with *no*
classifier on which classifier routing has been requested returns the plain
routing value `(Local, 0.8)` — not an error of any kind — and this value is
identical to the one returned by a router whose attached classifier is
disabled by configuration; the claimed distinct, explicit error does not
exist. -/
theorem claim_C1_counterexample :
    route (fun x => x) (setUseMlp routerNew true) qHi =
      some (RoutingDecision.Local, 8/10) ∧
    route (fun x => x) (setUseMlp (setMlp routerNew mlp0) false) qHi =
      some (RoutingDecision.Local, 8/10) ∧
    route (fun x => x) (setUseMlp routerNew true) qHi =
      route (fun x => x) (setUseMlp (setMlp routerNew mlp0) false) qHi :=
  ⟨rfl, rfl, rfl⟩

/-- C6: `EchoStateNetwork::train` with equal-length non-empty data sets
every `output_weights[i][j]` to `(Σ_k targets[k][i]·states[k][j]) /
(n_samples + regularization)` and touches nothing else; mismatched lengths
fail (the source's assert, `none` here); empty data is a silent no-op
returning the encoder unchanged. -/
theorem claim_C6_esn_train (e : EchoStateNetwork) (states targets : List (List ℚ)) (reg : ℚ) :
    (states.length = targets.length → states ≠ [] →
      esnTrain e states targets reg =
        some { e with output_weights := trainedWeights e states targets reg } ∧
      (∀ i j, i < e.output_size → j < e.reservoir_size →
        ((trainedWeights e states targets reg).getD i []).getD j 0 =
          (∑ k ∈ Finset.range states.length,
            (targets.getD k []).getD i 0 * (states.getD k []).getD j 0) /
          ((states.length : ℚ) + reg)) ∧
      (trainedWeights e states targets reg).length = e.output_size) ∧
    (states.length ≠ targets.length → esnTrain e states targets reg = none) ∧
    (states = [] → targets = [] → esnTrain e states targets reg = some e) := by
  refine ⟨fun h1 h2 => ⟨?_, fun i j hi hj => ?_, ?_⟩, fun h => ?_, fun hs ht => ?_⟩
  · have hne : states.isEmpty = false := List.isEmpty_eq_false.mpr h2
    simp [esnTrain, h1, hne]
  · rw [trainedWeights, getD_map_range _ _ _ _ hi, getD_map_range _ _ _ _ hj,
      sum_map_range_eq]
  · simp [trainedWeights]
  · simp [esnTrain, h]
  · subst hs; subst ht; simp [esnTrain]

/-- C6 witness: a concrete run of `train` on a 2-sample data set, hitting all
three branches of the claim. -/
theorem claim_C6_witness :
    (esnTrain ⟨2, 1, 1, [[0, 0], [0, 0]], [[0], [0]], [[0, 0]], [0, 0], 1/2, 1, 1⟩
        [[1, 2], [3, 4]] [[5], [6]] 1 =
      some { (⟨2, 1, 1, [[0, 0], [0, 0]], [[0], [0]], [[0, 0]], [0, 0], 1/2, 1, 1⟩ :
          EchoStateNetwork) with
        output_weights :=
          trainedWeights ⟨2, 1, 1, [[0, 0], [0, 0]], [[0], [0]], [[0, 0]], [0, 0], 1/2, 1, 1⟩
            [[1, 2], [3, 4]] [[5], [6]] 1 }) ∧
    esnTrain ⟨2, 1, 1, [[0, 0], [0, 0]], [[0], [0]], [[0, 0]], [0, 0], 1/2, 1, 1⟩
        [[1, 2]] [[5], [6]] 1 = none ∧
    esnTrain ⟨2, 1, 1, [[0, 0], [0, 0]], [[0], [0]], [[0, 0]], [0, 0], 1/2, 1, 1⟩ [] [] 1 =
      some ⟨2, 1, 1, [[0, 0], [0, 0]], [[0], [0]], [[0, 0]], [0, 0], 1/2, 1, 1⟩ :=
  ⟨((claim_C6_esn_train _ [[1, 2], [3, 4]] [[5], [6]] 1).1 (by decide) (by decide)).1,
   (claim_C6_esn_train _ [[1, 2]] [[5], [6]] 1).2.1 (by decide),
   (claim_C6_esn_train _ [] [] 1).2.2 rfl rfl⟩

/-- C4: divergence witness for the ReLU placement.  The source decides
whether to apply ReLU by comparing a layer's row count with `output_size`
("`layer_weights.len() != self.output_size`"), not by the layer's position;
for `MLP::new(2, vec![2], 2)` the hidden layer has 2 rows = `output_size`,
so — contrary to the source's own comment "ReLU activation for hidden
layers" and to the spec — no ReLU is applied to the hidden layer.  On input
`[1, 0]` the first hidden pre-activation is negative and the final output
differs from the spec-mandated one (`forwardSpecWords`, ReLU on every layer
except the final one). -/
theorem claim_C4_relu_bug :
    forward mlpBug [1, 0] = some [-128707119/268435456, -21881445/67108864] ∧
    forwardSpecWords mlpBug [1, 0] = some [-118432071/268435456, -5595573/33554432] ∧
    forward mlpBug [1, 0] ≠ forwardSpecWords mlpBug [1, 0] := by
  have h1 : forward mlpBug [1, 0] = some [-128707119/268435456, -21881445/67108864] := by
    norm_num [forward, mlpBug, mlpNew, genMat, genRow, lcgNext, lcgRand, layerForward, dotZ,
      List.range_succ]
  have h2 : forwardSpecWords mlpBug [1, 0] =
      some [-118432071/268435456, -5595573/33554432] := by
    norm_num [forwardSpecWords, mlpBug, mlpNew, genMat, genRow, lcgNext, lcgRand, dotZ,
      List.range_succ, List.replicate, List.enum_cons, List.enumFrom]
  refine ⟨h1, h2, ?_⟩
  rw [h1, h2]
  intro h
  have := (List.cons.injEq _ _ _ _).mp (Option.some.injEq _ _ ▸ h)
  norm_num at this

set_option maxRecDepth 8000 in
/-- C3 counterexample: the concrete query `qC3` has priority 9, a project
context, no configured complex keyword, and text length 60 ∈ [50, 500) — yet
`route` (no classifier used) returns `(Local, 0.75)` via the earlier
question-mark rule (rule 4 of the cascade), not the claimed `(Hybrid, 0.7)`:
the claim's universal Hybrid statement omits that rule 4 fires first on
queries containing `?` with length below 200. -/
theorem claim_C3_counterexample :
    route (fun x => x) routerNew qC3 = some (RoutingDecision.Local, 75/100) ∧
    route (fun x => x) routerNew qC3 ≠ some (RoutingDecision.Hybrid, 7/10) := by
  have h1 : route (fun x => x) routerNew qC3 = some (RoutingDecision.Local, 75/100) := rfl
  refine ⟨h1, ?_⟩
  rw [h1]
  simp

/-- C3 (amended): with no classifier used, `route` evaluates the ordered
heuristic cascade, returning at the first matching rule.  For every query
with priority 9, a project context set, no configured complex keyword, text
length in [50, 500), *and which does not both contain `?` and have length
below 200* (otherwise rule 4 returns `(Local, 0.75)` first), it returns
`(Hybrid, 0.7)`; and every 600-character query returns `(Remote, 0.9)`. -/
theorem claim_C3_amended :
    (∀ (ex : ℚ → ℚ) (q : Query), q.priority = 9 → q.project_context.isSome = true →
      (defaultRouterConfig.complex_keywords.any fun kw =>
        isSubOf (toLowerL kw) (toLowerL q.text)) = false →
      50 ≤ q.text.length → q.text.length < 500 →
      ¬(q.text.contains '?' = true ∧ q.text.length < 200) →
      route ex routerNew q = some (RoutingDecision.Hybrid, 7/10)) ∧
    (∀ (ex : ℚ → ℚ) (q : Query), q.text.length = 600 →
      route ex routerNew q = some (RoutingDecision.Remote, 9/10)) := by
  constructor
  · intro ex q hp hc hkw hl1 hl2 hq
    have hroute : route ex routerNew q = some (routeHeuristic defaultRouterConfig q) := rfl
    rw [hroute, routeHeuristic]
    rw [if_neg (by simp [defaultRouterConfig]; omega)]
    rw [if_neg (by simp [hkw])]
    rw [if_neg (by omega)]
    rw [if_neg ?hq4]
    case hq4 =>
      intro h
      rcases Bool.and_eq_true _ _ |>.mp h with ⟨hc4, hl4⟩
      exact hq ⟨hc4, of_decide_eq_true hl4⟩
    rw [if_pos ?hq5]
    case hq5 => simp [Query.isHighPriority, hp, hc]
  · intro ex q h
    have hroute : route ex routerNew q = some (routeHeuristic defaultRouterConfig q) := rfl
    rw [hroute, routeHeuristic, if_pos (by simp [defaultRouterConfig]; omega)]

set_option maxRecDepth 8000 in
/-- C3 witness: the amended theorem applied to a concrete 60-character
priority-9 with-context query without a question mark, and to a concrete
600-character query. -/
theorem claim_C3_witness :
    route (fun x => x) routerNew qC3w = some (RoutingDecision.Hybrid, 7/10) ∧
    route (fun x => x) routerNew q600 = some (RoutingDecision.Remote, 9/10) :=
  ⟨claim_C3_amended.1 (fun x => x) qC3w rfl rfl (by decide) (by decide) (by decide)
    (by decide),
   claim_C3_amended.2 (fun x => x) q600 (by simp [q600])⟩

theorem pairwise_fst_lt_enum (l : List ℚ) :
    List.Pairwise (fun a b : ℕ × ℚ => a.1 < b.1) l.enum := by
  have h := List.pairwise_lt_range l.length
  rw [← List.enum_map_fst l] at h
  exact List.pairwise_map.mp h

/-- Invariant of the `max_by` fold: the result is one of the scanned pairs,
its value dominates every scanned value, and among equal values the scanned
pair with the largest index wins (indices strictly increase left to
right). -/
theorem argmaxGo_spec (ps : List (ℕ × ℚ)) : ∀ best : ℕ × ℚ,
    List.Pairwise (fun a b : ℕ × ℚ => a.1 < b.1) (best :: ps) →
    (argmaxGo best ps = best ∨ argmaxGo best ps ∈ ps) ∧
    (∀ q ∈ best :: ps, q.2 ≤ (argmaxGo best ps).2) ∧
    (∀ q ∈ best :: ps, q.2 = (argmaxGo best ps).2 → q.1 ≤ (argmaxGo best ps).1) := by
  induction ps with
  | nil =>
    intro best _
    refine ⟨Or.inl rfl, ?_, ?_⟩ <;> simp [argmaxGo]
  | cons p ps ih =>
    intro best hpw
    have hbp : best.1 < p.1 := (List.pairwise_cons.mp hpw).1 p (List.mem_cons_self _ _)
    have hpw2 : List.Pairwise (fun a b : ℕ × ℚ => a.1 < b.1) (p :: ps) :=
      (List.pairwise_cons.mp hpw).2
    have hstep : argmaxGo best (p :: ps) = argmaxGo (if p.2 < best.2 then best else p) ps := rfl
    by_cases hcmp : p.2 < best.2
    · -- the incumbent is kept; `p` is dropped
      have hpwB : List.Pairwise (fun a b : ℕ × ℚ => a.1 < b.1) (best :: ps) := by
        refine List.pairwise_cons.mpr ⟨fun q hq => ?_, (List.pairwise_cons.mp hpw2).2⟩
        exact lt_trans hbp ((List.pairwise_cons.mp hpw2).1 q hq)
      obtain ⟨ihm, ihb, iht⟩ := ih best hpwB
      rw [hstep, if_pos hcmp]
      have hub : best.2 ≤ (argmaxGo best ps).2 := ihb best (List.mem_cons_self _ _)
      refine ⟨?_, ?_, ?_⟩
      · rcases ihm with h | h
        · exact Or.inl h
        · exact Or.inr (List.mem_cons_of_mem _ h)
      · intro q hq
        rcases List.mem_cons.mp hq with h | hq2
        · subst h; exact hub
        rcases List.mem_cons.mp hq2 with h | h
        · subst h; exact le_trans (le_of_lt hcmp) hub
        · exact ihb q (List.mem_cons_of_mem _ h)
      · intro q hq hqe
        rcases List.mem_cons.mp hq with h | hq2
        · subst h; exact iht q (List.mem_cons_self _ _) hqe
        rcases List.mem_cons.mp hq2 with h | h
        · subst h
          exact absurd hqe (ne_of_lt (lt_of_lt_of_le hcmp hub))
        · exact iht q (List.mem_cons_of_mem _ h) hqe
    · -- the newcomer `p` replaces the incumbent; `best` is dropped
      obtain ⟨ihm, ihb, iht⟩ := ih p hpw2
      rw [hstep, if_neg hcmp]
      have hle : best.2 ≤ p.2 := le_of_not_lt hcmp
      have hub : p.2 ≤ (argmaxGo p ps).2 := ihb p (List.mem_cons_self _ _)
      refine ⟨?_, ?_, ?_⟩
      · rcases ihm with h | h
        · exact Or.inr (by rw [h]; exact List.mem_cons_self _ _)
        · exact Or.inr (List.mem_cons_of_mem _ h)
      · intro q hq
        rcases List.mem_cons.mp hq with h | hq2
        · subst h; exact le_trans hle hub
        · exact ihb q hq2
      · intro q hq hqe
        rcases List.mem_cons.mp hq with h | hq2
        · subst h
          have hrp : (argmaxGo p ps).2 ≤ p.2 := by rw [← hqe]; exact hle
          have hpr : p.2 = (argmaxGo p ps).2 := le_antisymm hub hrp
          exact le_trans (le_of_lt hbp) (iht p (List.mem_cons_self _ _) hpr)
        · exact iht q hq2 hqe

/-- C8: for every non-empty list, `MLP::argmax` returns an in-range index of
a maximum value and, among tied maxima, the highest index (Rust
`Iterator::max_by` returns the last maximal element); in particular
`argmax [0.1, 0.8, 0.3] = 1`, `argmax [5, 2, 1] = 0`, and
`argmax [0.5, 0.9, 0.9] = 2`. -/
theorem claim_C8_argmax (l : List ℚ) (h : l ≠ []) :
    (argmax l < l.length ∧
      (∀ j, j < l.length → l.getD j 0 ≤ l.getD (argmax l) 0) ∧
      (∀ j, j < l.length → l.getD j 0 = l.getD (argmax l) 0 → j ≤ argmax l)) ∧
    argmax [(1 : ℚ)/10, 8/10, 3/10] = 1 ∧
    argmax [(5 : ℚ), 2, 1] = 0 ∧
    argmax [(1 : ℚ)/2, 9/10, 9/10] = 2 := by
  have hgen : argmax l < l.length ∧
      (∀ j, j < l.length → l.getD j 0 ≤ l.getD (argmax l) 0) ∧
      (∀ j, j < l.length → l.getD j 0 = l.getD (argmax l) 0 → j ≤ argmax l) := by
    obtain ⟨p, ps, hl⟩ : ∃ p ps, l.enum = p :: ps := by
      cases he : l.enum with
      | nil =>
        exfalso
        have : l.enum.length = 0 := by rw [he]; rfl
        rw [List.enum_length] at this
        exact h (List.length_eq_zero.mp this)
      | cons p ps => exact ⟨p, ps, rfl⟩
    have hpw := pairwise_fst_lt_enum l
    rw [hl] at hpw
    obtain ⟨hm, hb, ht⟩ := argmaxGo_spec ps p hpw
    have hargmax : argmax l = (argmaxGo p ps).1 := by rw [argmax, hl]
    have hrmem : argmaxGo p ps ∈ l.enum := by
      rw [hl]
      rcases hm with hmm | hmm
      · rw [hmm]; exact List.mem_cons_self _ _
      · exact List.mem_cons_of_mem _ hmm
    have hr1 := List.mem_enum_iff_getElem?.mp hrmem
    have hrlt : (argmaxGo p ps).1 < l.length := by
      by_contra hge
      rw [List.getElem?_eq_none (le_of_not_lt hge)] at hr1
      exact Option.noConfusion hr1
    have hrval : l.getD (argmaxGo p ps).1 0 = (argmaxGo p ps).2 := by
      rw [List.getD_eq_getElem l 0 hrlt]
      have := List.getElem?_eq_getElem hrlt
      rw [this] at hr1
      exact Option.some.injEq _ _ ▸ hr1
    have hjmem : ∀ j, j < l.length → ((j, l.getD j 0) : ℕ × ℚ) ∈ p :: ps := by
      intro j hj
      rw [← hl]
      refine List.mem_enum_iff_getElem?.mpr ?_
      rw [List.getD_eq_getElem l 0 hj]
      exact List.getElem?_eq_getElem hj
    refine ⟨hargmax ▸ hrlt, fun j hj => ?_, fun j hj hje => ?_⟩
    · rw [hargmax, hrval]
      exact hb _ (hjmem j hj)
    · rw [hargmax]
      exact ht _ (hjmem j hj) (by rw [hargmax, hrval] at hje; exact hje)
  refine ⟨hgen, ?_, ?_, ?_⟩ <;>
    norm_num [argmax, argmaxGo, List.enum, List.enumFrom]

/-- C8 witness: the theorem applied to the non-empty list `[5, 2, 1]`. -/
theorem claim_C8_witness :
    ([(5 : ℚ), 2, 1] ≠ []) ∧ argmax [(5 : ℚ), 2, 1] < ([(5 : ℚ), 2, 1]).length :=
  ⟨by simp, (claim_C8_argmax [(5 : ℚ), 2, 1] (by simp)).1.1⟩

/-- The loss accumulator of the per-example fold is a pure running sum: a
fold started at `(m, c)` equals the fold started at `(m, 0)` with `c` added
to its loss. -/
theorem foldl_exStep_shift (lg2 : ℚ → ℚ) (lr : ℚ) (fs : List (List ℚ)) (ls : List ℕ)
    (idxs : List ℕ) : ∀ (m : MLP) (c : ℚ),
    idxs.foldl (exStep lg2 lr fs ls) (m, c) =
      ((idxs.foldl (exStep lg2 lr fs ls) (m, 0)).1,
        c + (idxs.foldl (exStep lg2 lr fs ls) (m, 0)).2) := by
  induction idxs with
  | nil => intro m c; simp
  | cons i idxs ih =>
    intro m c
    rw [List.foldl_cons, List.foldl_cons]
    have h1 : exStep lg2 lr fs ls (m, c) i =
        ((exStep lg2 lr fs ls (m, 0) i).1, c + (exStep lg2 lr fs ls (m, 0) i).2) := by
      simp [exStep]
    rw [h1]
    rw [ih (exStep lg2 lr fs ls (m, 0) i).1 (c + (exStep lg2 lr fs ls (m, 0) i).2)]
    rw [ih (exStep lg2 lr fs ls (m, 0) i).1 (exStep lg2 lr fs ls (m, 0) i).2]
    rw [add_assoc]

/-- Splitting the per-example fold across an index-list concatenation. -/
theorem runExamples_append (lg2 : ℚ → ℚ) (lr : ℚ) (fs : List (List ℚ)) (ls : List ℕ)
    (xs ys : List ℕ) (m : MLP) :
    runExamples lg2 lr fs ls m (xs ++ ys) =
      ((runExamples lg2 lr fs ls (runExamples lg2 lr fs ls m xs).1 ys).1,
        (runExamples lg2 lr fs ls m xs).2 +
          (runExamples lg2 lr fs ls (runExamples lg2 lr fs ls m xs).1 ys).2) := by
  rw [runExamples, List.foldl_append]
  exact foldl_exStep_shift lg2 lr fs ls ys
    (runExamples lg2 lr fs ls m xs).1 (runExamples lg2 lr fs ls m xs).2

/-- The first `n ≤ len/bs` mini-batches process exactly the contiguous index
range `[0, n·bs)`, and the summed per-batch mean losses equal the total loss
over that range divided by the batch width. -/
theorem batches_eq (lg2 : ℚ → ℚ) (lr : ℚ) (fs : List (List ℚ)) (ls : List ℕ) (bs : ℕ) :
    ∀ n, n ≤ fs.length / bs → ∀ m : MLP,
    (List.range n).foldl (batchStep lg2 lr fs ls bs) (m, 0) =
      ((runExamples lg2 lr fs ls m (List.range' 0 (n * bs))).1,
        (runExamples lg2 lr fs ls m (List.range' 0 (n * bs))).2 / (bs : ℚ)) := by
  intro n
  induction n with
  | zero => intro _ m; simp [runExamples]
  | succ n ih =>
    intro hn m
    rw [List.range_succ, List.foldl_append, ih (le_trans (Nat.le_succ n) hn) m]
    have hle : n * bs + bs ≤ fs.length := by
      have h1 : (n + 1) * bs ≤ (fs.length / bs) * bs := Nat.mul_le_mul_right bs hn
      calc n * bs + bs = (n + 1) * bs := by ring
        _ ≤ (fs.length / bs) * bs := h1
        _ ≤ fs.length := Nat.div_mul_le_self _ _
    have hmin : min (n * bs + bs) fs.length = n * bs + bs := min_eq_left hle
    have hrange : List.range' 0 ((n + 1) * bs) =
        List.range' 0 (n * bs) ++ List.range' (n * bs) bs := by
      have h := List.range'_append 0 (n * bs) bs 1
      simp only [one_mul, zero_add] at h
      rw [h, Nat.succ_mul, Nat.add_comm bs (n * bs)]
    simp only [List.foldl_cons, List.foldl_nil, batchStep, hmin, Nat.add_sub_cancel_left,
      hrange, runExamples_append]
    rw [div_add_div_same]

/-- C5 (amended): each training epoch with `0 < batch_size < len` performs
`backward` (3-class one-hot target) followed by `update` once per example,
in order, for exactly the first `(len / batch_size) · batch_size` examples —
the trailing `len mod batch_size` examples are never visited — and the epoch
loss is the mean loss over the visited examples (the mean of per-batch mean
losses). -/
theorem claim_C5_amended (lg2 : ℚ → ℚ) (m : MLP) (fs : List (List ℚ)) (ls : List ℕ)
    (bs : ℕ) (lr : ℚ) (h1 : 0 < bs) (h2 : bs < fs.length) :
    epochStep lg2 m fs ls bs lr = epochTruncSpec lg2 m fs ls bs lr := by
  simp only [epochStep, epochTruncSpec, if_pos (And.intro h1 h2)]
  rw [batches_eq lg2 lr fs ls bs (fs.length / bs) le_rfl m]
  rw [List.range_eq_range']
  rw [div_div]
  congr 1
  push_cast
  ring

/-- C5 counterexample: with 3 training examples and batch size 2 the epoch
runs `3 / 2 = 1` batch and never visits example 2 — the resulting classifier
(weight 1/4 after two updates) differs from the one obtained when every
example is visited (weight 1/8 after three updates), so the claim's "every
training example is visited" is false. -/
theorem claim_C5_counterexample :
    epochStep (fun _ => 0) mC5 [[1], [1], [1]] [1, 1, 1] 2 (1/2) =
      ((⟨1, [], 1, [[[1/4]]], [[0]]⟩ : MLP), 0) ∧
    epochAllSpec (fun _ => 0) mC5 [[1], [1], [1]] [1, 1, 1] (1/2) =
      ((⟨1, [], 1, [[[1/8]]], [[0]]⟩ : MLP), 0) ∧
    epochStep (fun _ => 0) mC5 [[1], [1], [1]] [1, 1, 1] 2 (1/2) ≠
      epochAllSpec (fun _ => 0) mC5 [[1], [1], [1]] [1, 1, 1] (1/2) := by
  have h1 : epochStep (fun _ => 0) mC5 [[1], [1], [1]] [1, 1, 1] 2 (1/2) =
      ((⟨1, [], 1, [[[1/4]]], [[0]]⟩ : MLP), 0) := by
    norm_num [epochStep, batchStep, runExamples, exStep, backward, update, oneHot,
      layerForward, dotZ, zipKeep, gdStep, mC5, List.range_succ, List.range', List.scanl]
  have h2 : epochAllSpec (fun _ => 0) mC5 [[1], [1], [1]] [1, 1, 1] (1/2) =
      ((⟨1, [], 1, [[[1/8]]], [[0]]⟩ : MLP), 0) := by
    norm_num [epochAllSpec, runExamples, exStep, backward, update, oneHot,
      layerForward, dotZ, zipKeep, gdStep, mC5, List.range_succ, List.range', List.scanl]
  refine ⟨h1, h2, ?_⟩
  rw [h1, h2]
  intro h
  have hw := congrArg (fun p : MLP × ℚ => p.1.weights) h
  simp only at hw
  have := (List.cons.injEq _ _ _ _).mp hw
  have := (List.cons.injEq _ _ _ _).mp this.1
  have := (List.cons.injEq _ _ _ _).mp this.1
  norm_num at this

/-- C5 witness: the amended theorem at batch size 2 on a 3-example data
set. -/
theorem claim_C5_witness :
    0 < 2 ∧ 2 < ([[(1 : ℚ)], [1], [1]]).length ∧
    epochStep (fun _ => 0) mC5 [[1], [1], [1]] [1, 1, 1] 2 (1/2) =
      epochTruncSpec (fun _ => 0) mC5 [[1], [1], [1]] [1, 1, 1] 2 (1/2) :=
  ⟨by norm_num, by norm_num,
   claim_C5_amended (fun _ => 0) mC5 [[1], [1], [1]] [1, 1, 1] 2 (1/2)
     (by norm_num) (by norm_num)⟩

theorem zipKeep_length {α β : Type} (f : α → β → α) :
    ∀ (xs : List α) (ys : List β), (zipKeep f xs ys).length = xs.length := by
  intro xs
  induction xs with
  | nil => intro ys; cases ys <;> rfl
  | cons x xs ih =>
    intro ys
    cases ys with
    | nil => rfl
    | cons y ys => simp [zipKeep, ih]

theorem zipKeep_getD {α β : Type} (f : α → β → α) (dx : α) (dy : β) :
    ∀ (xs : List α) (ys : List β), ys.length = xs.length → ∀ i,
    (zipKeep f xs ys).getD i dx =
      if i < xs.length then f (xs.getD i dx) (ys.getD i dy) else dx := by
  intro xs
  induction xs with
  | nil =>
    intro ys hy i
    cases ys with
    | nil => simp [zipKeep]
    | cons y ys => simp at hy
  | cons x xs ih =>
    intro ys hy i
    cases ys with
    | nil => simp at hy
    | cons y ys =>
      cases i with
      | zero => simp [zipKeep]
      | succ i =>
        simp only [zipKeep, List.getD_cons_succ, List.length_cons, Nat.succ_lt_succ_iff]
        exact ih ys (by simpa using hy) i

theorem getD_eq_default_of_le {α : Type} (l : List α) (d : α) {i : ℕ} (h : l.length ≤ i) :
    l.getD i d = d := by
  rw [List.getD_eq_getElem?_getD, List.getElem?_eq_none h]
  rfl

/-- C7: `MLP::update` applies gradient descent to the weights only — every
weight decreases by `learning_rate · gradient` — and leaves every bias
vector and every structural field unchanged (for gradients of the same shape
as the weights, the shape `backward` produces; mismatched larger gradient
structures would panic in the source). -/
theorem claim_C7_update_frame (m : MLP) (g : List (List (List ℚ))) (lr : ℚ)
    (hL : g.length = m.weights.length)
    (hR : ∀ l, l < g.length → (g.getD l []).length = (m.weights.getD l []).length)
    (hC : ∀ l, l < g.length → ∀ i, i < (g.getD l []).length →
      ((g.getD l []).getD i []).length = ((m.weights.getD l []).getD i []).length) :
    (update m g lr).biases = m.biases ∧
    (update m g lr).input_size = m.input_size ∧
    (update m g lr).hidden_sizes = m.hidden_sizes ∧
    (update m g lr).output_size = m.output_size ∧
    (update m g lr).weights.length = m.weights.length ∧
    (∀ l i j, (((update m g lr).weights.getD l []).getD i []).getD j 0 =
      ((m.weights.getD l []).getD i []).getD j 0 -
        lr * (((g.getD l []).getD i []).getD j 0)) := by
  refine ⟨rfl, rfl, rfl, rfl, zipKeep_length _ _ _, fun l i j => ?_⟩
  show (((zipKeep
      (fun lw lg2 => zipKeep (fun wr gr => zipKeep (gdStep lr) wr gr) lw lg2)
      m.weights g).getD l []).getD i []).getD j 0 = _
  rw [zipKeep_getD _ [] [] m.weights g hL l]
  by_cases hl : l < m.weights.length
  · rw [if_pos hl]
    have hlg : l < g.length := by rw [hL]; exact hl
    rw [zipKeep_getD _ [] [] (m.weights.getD l []) (g.getD l []) (hR l hlg) i]
    by_cases hi : i < (m.weights.getD l []).length
    · rw [if_pos hi]
      have hig : i < (g.getD l []).length := by rw [hR l hlg]; exact hi
      rw [zipKeep_getD _ 0 0 ((m.weights.getD l []).getD i []) ((g.getD l []).getD i [])
        (hC l hlg i hig) j]
      by_cases hj : j < ((m.weights.getD l []).getD i []).length
      · rw [if_pos hj]; rfl
      · rw [if_neg hj]
        rw [getD_eq_default_of_le _ 0 (le_of_not_lt hj)]
        rw [getD_eq_default_of_le _ 0 (by rw [hC l hlg i hig]; exact le_of_not_lt hj)]
        ring
    · rw [if_neg hi]
      rw [getD_eq_default_of_le _ [] (le_of_not_lt hi),
        getD_eq_default_of_le _ [] (by rw [hR l hlg]; exact le_of_not_lt hi)]
      simp
  · rw [if_neg hl]
    rw [getD_eq_default_of_le m.weights [] (le_of_not_lt hl),
      getD_eq_default_of_le g [] (by rw [hL]; exact le_of_not_lt hl)]
    simp

/-- C7 witness: the theorem at a concrete one-weight classifier with a
matching one-entry gradient structure. -/
theorem claim_C7_witness :
    (update mC5 [[[2]]] 1).biases = mC5.biases ∧
    (update mC5 [[[2]]] 1).hidden_sizes = mC5.hidden_sizes :=
  ⟨(claim_C7_update_frame mC5 [[[2]]] 1 (by decide) (by decide) (by decide)).1,
   (claim_C7_update_frame mC5 [[[2]]] 1 (by decide) (by decide) (by decide)).2.2.1⟩

theorem getD_set_self {α : Type} (l : List α) (i : ℕ) (v d : α) (h : i < l.length) :
    (l.set i v).getD i d = v := by
  rw [List.getD_eq_getElem?_getD, List.getElem?_set_self h]
  rfl

theorem getD_set_ne {α : Type} (l : List α) {i j : ℕ} (h : i ≠ j) (v d : α) :
    (l.set i v).getD j d = l.getD j d := by
  rw [List.getD_eq_getElem?_getD, List.getElem?_set_ne h, ← List.getD_eq_getElem?_getD]

/-- Membership in a `List.set` result splits into old membership or the new
value; hence any membership-closed bound survives a single write of a
bounded value. -/
theorem set_preserves_bounds {l : List ℚ} {v : ℚ} (hl : ∀ x ∈ l, 0 ≤ x ∧ x ≤ 1)
    (hv : 0 ≤ v ∧ v ≤ 1) (i : ℕ) : ∀ x ∈ l.set i v, 0 ≤ x ∧ x ≤ 1 := by
  intro x hx
  rcases List.mem_or_eq_of_mem_set hx with h | h
  · exact hl x h
  · exact h ▸ hv

theorem kwLoop_length (low : List Char) :
    ∀ (ks : List (List Char)) (i : ℕ) (f : List ℚ), (kwLoop low i ks f).length = f.length := by
  intro ks
  induction ks with
  | nil => intro i f; rfl
  | cons k ks ih => intro i f; rw [kwLoop, ih, List.length_set]

theorem kwLoop_bounds (low : List Char) :
    ∀ (ks : List (List Char)) (i : ℕ) (f : List ℚ), (∀ x ∈ f, 0 ≤ x ∧ x ≤ 1) →
    ∀ x ∈ kwLoop low i ks f, 0 ≤ x ∧ x ≤ 1 := by
  intro ks
  induction ks with
  | nil => intro i f hf; exact hf
  | cons k ks ih =>
    intro i f hf
    exact ih (i + 1) _ (set_preserves_bounds hf (by split <;> norm_num) _)

/-- The keyword loop started at slot offset `i` never writes at or beyond
slot `5 + i + ks.length`. -/
theorem kwLoop_getD_high (low : List Char) :
    ∀ (ks : List (List Char)) (i : ℕ) (f : List ℚ) (j : ℕ), 5 + i + ks.length ≤ j →
    (kwLoop low i ks f).getD j 0 = f.getD j 0 := by
  intro ks
  induction ks with
  | nil => intro i f j _; rfl
  | cons k ks ih =>
    intro i f j hj
    rw [List.length_cons] at hj
    rw [kwLoop, ih (i + 1) _ j (by omega), getD_set_ne _ (by omega) _ _]

theorem wordHash_lt (w : List Char) : wordHash w < 360 :=
  Nat.mod_lt _ (by norm_num)

theorem bagStep_length (n : ℕ) (f : List ℚ) (w : List Char) :
    (bagStep n f w).length = f.length := List.length_set _ _ _

theorem bagRun_length (n : ℕ) :
    ∀ (ws : List (List Char)) (f : List ℚ), (ws.foldl (bagStep n) f).length = f.length := by
  intro ws
  induction ws with
  | nil => intro f; rfl
  | cons w ws ih => intro f; rw [List.foldl_cons, ih, bagStep_length]

/-- Closed form of the bag-of-words fold: slot `i` accumulates
`1/n` once per processed word hashing to `i`. -/
theorem bagRun_getD (n : ℕ) :
    ∀ (ws : List (List Char)) (f : List ℚ), f.length = 384 → ∀ i,
    (ws.foldl (bagStep n) f).getD i 0 =
      f.getD i 0 + ((ws.countP fun w => 20 + wordHash w == i) : ℚ) * (1 / (n : ℚ)) := by
  intro ws
  induction ws with
  | nil => intro f _ i; simp
  | cons w ws ih =>
    intro f hf i
    rw [List.foldl_cons, ih (bagStep n f w) (by rw [bagStep_length, hf]) i, List.countP_cons]
    by_cases hw : 20 + wordHash w = i
    · have hstep : (bagStep n f w).getD i 0 = f.getD i 0 + 1 / (n : ℚ) := by
        rw [bagStep, hw]
        exact getD_set_self f i _ 0 (by rw [hf]; have := wordHash_lt w; omega)
      rw [hstep]
      simp only [hw, beq_self_eq_true, if_pos]
      push_cast
      ring
    · have hstep : (bagStep n f w).getD i 0 = f.getD i 0 := by
        rw [bagStep]
        exact getD_set_ne f hw _ 0
      rw [hstep]
      have : ((20 + wordHash w == i) : Bool) = false := by
        simpa using hw
      rw [this]
      simp

/-- Every value of the bag fold stays in `[0, 1]` provided the start vector
does, the start vector is zero on the bag region, and at most `n` words are
processed (each contributing `1/n`). -/
theorem bagRun_bounds (n : ℕ) (ws2 : List (List Char)) (hws : ws2.length ≤ n)
    (f : List ℚ) (hf : f.length = 384) (hb : ∀ x ∈ f, 0 ≤ x ∧ x ≤ 1)
    (hzero : ∀ i, 20 ≤ i → i ≤ 379 → f.getD i 0 = 0) :
    ∀ x ∈ ws2.foldl (bagStep n) f, 0 ≤ x ∧ x ≤ 1 := by
  intro x hx
  have hlen : (ws2.foldl (bagStep n) f).length = 384 := by rw [bagRun_length, hf]
  obtain ⟨k, hk, hkx⟩ := List.mem_iff_getElem.mp hx
  have hk384 : k < 384 := by rw [hlen] at hk; exact hk
  have hkd : (ws2.foldl (bagStep n) f).getD k 0 = x := by
    rw [List.getD_eq_getElem _ 0 hk]
    exact hkx
  rw [← hkd, bagRun_getD n ws2 f hf k]
  by_cases hc : (ws2.countP fun w => 20 + wordHash w == k) = 0
  · rw [hc]
    simp only [Nat.cast_zero, zero_mul, add_zero]
    have hkf : k < f.length := by rw [hf]; exact hk384
    have : f.getD k 0 ∈ f := by
      rw [List.getD_eq_getElem f 0 hkf]
      exact List.getElem_mem hkf
    exact hb _ this
  · have hcpos : 0 < ws2.countP fun w => 20 + wordHash w == k := Nat.pos_of_ne_zero hc
    obtain ⟨w, hwmem, hwp⟩ := List.countP_pos.mp hcpos
    have hwi : 20 + wordHash w = k := by simpa using hwp
    have hk20 : 20 ≤ k := by omega
    have hk379 : k ≤ 379 := by have := wordHash_lt w; omega
    rw [hzero k hk20 hk379, zero_add]
    have hcle : (ws2.countP fun w => 20 + wordHash w == k) ≤ n :=
      le_trans (List.countP_le_length _) hws
    have hn0 : 0 < n := lt_of_lt_of_le hcpos hcle
    constructor
    · positivity
    · rw [mul_one_div, div_le_one (by exact_mod_cast hn0)]
      exact_mod_cast hcle

theorem featsStatic_length (cfg : RouterConfig) (q : Query) :
    (featsStatic cfg q).length = 384 := by
  simp only [featsStatic]
  rw [List.length_set, List.length_set, List.length_set, List.length_set, List.length_set,
    List.length_set, List.length_set, List.length_set, List.length_set, List.length_set,
    kwLoop_length, List.length_set, List.length_set, List.length_set, List.length_set,
    List.length_set, List.length_replicate]

theorem featsStatic_bounds (cfg : RouterConfig) (q : Query) (h2 : q.priority ≤ 10) :
    ∀ x ∈ featsStatic cfg q, 0 ≤ x ∧ x ≤ 1 := by
  have hrep : ∀ x ∈ List.replicate 384 (0 : ℚ), 0 ≤ x ∧ x ≤ 1 := by
    intro x hx
    rw [List.eq_of_mem_replicate hx]
    norm_num
  have hmin : ∀ a : ℚ, 0 ≤ a → 0 ≤ min a 1 ∧ min a 1 ≤ 1 := fun a ha =>
    ⟨le_min ha (by norm_num), min_le_right a 1⟩
  have hfrac : ∀ a b : ℕ, a ≤ b → 0 < b →
      0 ≤ (a : ℚ) / (b : ℚ) ∧ (a : ℚ) / (b : ℚ) ≤ 1 := by
    intro a b hab hb
    constructor
    · positivity
    · rw [div_le_one (by exact_mod_cast hb)]
      exact_mod_cast hab
  simp only [featsStatic]
  refine set_preserves_bounds (set_preserves_bounds (set_preserves_bounds
    (set_preserves_bounds (set_preserves_bounds (set_preserves_bounds
    (set_preserves_bounds (set_preserves_bounds (set_preserves_bounds
    (set_preserves_bounds (kwLoop_bounds _ _ _ _ (set_preserves_bounds
    (set_preserves_bounds (set_preserves_bounds (set_preserves_bounds
    (set_preserves_bounds hrep ?_ _) ?_ _) ?_ _) ?_ _) ?_ _))
    ?_ _) ?_ _) ?_ _) ?_ _) ?_ _) ?_ _) ?_ _) ?_ _) ?_ _) ?_ _
  -- innermost writes first: slots 0, 1, 2, 3, 4; then (after kwLoop)
  -- slots 10, 11, 12, …, 19
  · exact hmin _ (by positivity)
  · exact hmin _ (by positivity)
  · split <;> norm_num
  · refine hfrac q.priority 10 h2 (by norm_num)
  · split <;> norm_num
  · -- slot 10: uppercase fraction
    split
    · norm_num
    · rename_i hne
      refine hfrac _ _ (List.length_filter_le _ _) ?_
      rw [List.length_pos]
      intro hnil
      exact hne (by rw [hnil]; rfl)
  · -- slot 11: punctuation density
    split
    · norm_num
    · rename_i hne
      refine hfrac _ _ (List.length_filter_le _ _) ?_
      rw [List.length_pos]
      intro hnil
      exact hne (by rw [hnil]; rfl)
  · split <;> norm_num
  · split <;> norm_num
  · split <;> norm_num
  · split <;> norm_num
  · split <;> norm_num
  · split <;> norm_num
  · split <;> norm_num
  · split <;> norm_num

/-- All static writes land in slots 0–19, so the bag region (and everything
from slot 20 up) of `featsStatic` is still zero. -/
theorem featsStatic_high_zero (cfg : RouterConfig) (q : Query) :
    ∀ i, 20 ≤ i → (featsStatic cfg q).getD i 0 = 0 := by
  intro i hi
  simp only [featsStatic]
  rw [getD_set_ne _ (by omega), getD_set_ne _ (by omega), getD_set_ne _ (by omega),
    getD_set_ne _ (by omega), getD_set_ne _ (by omega), getD_set_ne _ (by omega),
    getD_set_ne _ (by omega), getD_set_ne _ (by omega), getD_set_ne _ (by omega),
    getD_set_ne _ (by omega)]
  rw [kwLoop_getD_high _ _ 0 _ i (by
    have : (cfg.complex_keywords.take 5).length ≤ 5 := by
      rw [List.length_take]
      omega
    omega)]
  rw [getD_set_ne _ (by omega), getD_set_ne _ (by omega), getD_set_ne _ (by omega),
    getD_set_ne _ (by omega), getD_set_ne _ (by omega)]
  rcases lt_or_ge i 384 with hlt | hge
  · rw [List.getD_eq_getElem _ 0 (by rw [List.length_replicate]; exact hlt)]
    exact List.getElem_replicate _ _
  · exact getD_eq_default_of_le _ 0 (by rw [List.length_replicate]; exact hge)

/-- C9: for every configuration and every query with priority in 1–10
(empty text included), feature extraction is total and returns exactly 384
values, each in `[0, 1]`; and every bag-of-words write index `20 + hash`
lies in 20–379 (`hash < 360`), inside the 384-slot vector — so none of the
source's vector writes can fail. -/
theorem claim_C9_features (cfg : RouterConfig) (q : Query)
    (h1 : 1 ≤ q.priority) (h2 : q.priority ≤ 10) :
    (extractFeatures cfg q).length = 384 ∧
    (∀ x ∈ extractFeatures cfg q, 0 ≤ x ∧ x ≤ 1) ∧
    (∀ w : List Char, 20 ≤ 20 + wordHash w ∧ 20 + wordHash w ≤ 379) := by
  have hbagws : ((splitWs q.text).take 360).length ≤ (splitWs q.text).length := by
    rw [List.length_take]
    omega
  have hstatic_len := featsStatic_length cfg q
  have hstatic_b := featsStatic_bounds cfg q h2
  have hstatic_z := featsStatic_high_zero cfg q
  have hbag_len : (((splitWs q.text).take 360).foldl (bagStep (splitWs q.text).length)
      (featsStatic cfg q)).length = 384 := by
    rw [bagRun_length, hstatic_len]
  have hbag_b := bagRun_bounds (splitWs q.text).length ((splitWs q.text).take 360) hbagws
    (featsStatic cfg q) hstatic_len hstatic_b (fun i hi _ => hstatic_z i hi)
  refine ⟨?_, ?_, fun w => ⟨by omega, by have := wordHash_lt w; omega⟩⟩
  · simp only [extractFeatures]
    rw [List.length_set, List.length_set, List.length_set, List.length_set, hbag_len]
  · simp only [extractFeatures]
    refine set_preserves_bounds (set_preserves_bounds (set_preserves_bounds
      (set_preserves_bounds hbag_b ?_ _) ?_ _) ?_ _) ?_ _
    · exact ⟨le_min (by positivity) (by norm_num), min_le_right _ 1⟩
    · split <;> norm_num
    · split <;> norm_num
    · split <;> norm_num

/-- C9 witness: the theorem at the default configuration and the concrete
priority-5 query "Hi". -/
theorem claim_C9_witness :
    1 ≤ qHi.priority ∧ qHi.priority ≤ 10 ∧
    (extractFeatures defaultRouterConfig qHi).length = 384 :=
  ⟨by norm_num [qHi], by norm_num [qHi],
   (claim_C9_features defaultRouterConfig qHi (by norm_num [qHi]) (by norm_num [qHi])).1⟩

end Orchestrator
